import Mathlib

/-!
Shallow embedding of the livepeer/catalyst-uploader core upload pipeline
(src/core/uploader.go and the coalescing overwrite queue in the drivers
package), together with theorems settling the specification claims.

Byte strings and URI strings are modelled as `List Char`; machine `int64`
counters as `Nat` (they only ever accumulate non-negative buffer lengths);
fallible operations return `Option`/`Except`.  Network and filesystem
outcomes are supplied as explicit oracles (one result per attempt), so the
control flow of the Go code is embedded faithfully while the external
storage driver stays abstract, exactly as it is an external collaborator of
the repository.
-/

namespace CatalystUploader

/-- Model of Go `path/filepath.Ext` applied to a reversed path: scan the
reversed rune list; stop at a path separator; once the final dot is found the
extension (reversed) is accumulated.  `goExtAux r` returns the reverse of
`filepath.Ext p` for `r = p.reverse`. -/
def goExtAux : List Char → List Char
  | [] => []
  | c :: rest =>
    if c = '/' then []
    else if c = '.' then [c]
    else
      match goExtAux rest with
      | [] => []
      | e :: es => c :: e :: es

/-- Model of Go `filepath.Ext(path)`: the suffix beginning at the final dot
in the final slash-separated element of the path, empty if there is none. -/
def goFilepathExt (p : List Char) : List Char :=
  (goExtAux p.reverse).reverse

/-- The two write strategies of `core.Upload` (spec name: ArtifactClass). -/
inductive ArtifactClass : Type
  | segment : ArtifactClass
  | manifest : ArtifactClass
deriving DecidableEq

/-- Model of the routing decision at the top of `core.Upload`
(`ext := filepath.Ext(outputURI.Path); if ext == ".ts" || ext == ".mp4"`).
The class is computed once, from the destination path, before any input is
consumed. -/
def uploadMode (path : List Char) : ArtifactClass :=
  if goFilepathExt path = ".ts".toList ∨ goFilepathExt path = ".mp4".toList then
    ArtifactClass.segment
  else
    ArtifactClass.manifest

lemma goExtAux_nil : goExtAux [] = [] := rfl

lemma goExtAux_sep (rest : List Char) : goExtAux ('/' :: rest) = [] := by
  simp [goExtAux]

lemma goExtAux_dot (rest : List Char) : goExtAux ('.' :: rest) = ['.'] := by
  simp [goExtAux]

lemma goExtAux_other (c : Char) (rest : List Char) (h1 : c ≠ '/') (h2 : c ≠ '.') :
    goExtAux (c :: rest) =
      match goExtAux rest with
      | [] => []
      | e :: es => c :: e :: es := by
  simp [goExtAux, h1, h2]

/-- Characterisation of `goExtAux` on reversed paths: for an extension whose
reversed form is `cs ++ ['.']` with no dot and no separator among `cs`, the
scan returns it exactly when it is a prefix of the reversed path. -/
lemma goExtAux_eq_iff (r : List Char) : ∀ (cs : List Char), '.' ∉ cs → '/' ∉ cs →
    (goExtAux r = cs ++ ['.'] ↔ cs ++ ['.'] <+: r) := by
  induction r with
  | nil =>
    intro cs _ _
    constructor
    · intro h
      exact absurd h.symm (by simp [goExtAux_nil])
    · intro h
      have := h.length_le
      simp at this
  | cons c rest ih =>
    intro cs hdot hsep
    rcases cs with _ | ⟨c', cs'⟩
    · simp only [List.nil_append]
      by_cases hc1 : c = '/'
      · subst hc1
        rw [goExtAux_sep]
        constructor
        · intro h
          exact absurd h (by simp)
        · intro h
          rw [List.cons_prefix_cons] at h
          exact absurd h.1 (by decide)
      · by_cases hc2 : c = '.'
        · subst hc2
          rw [goExtAux_dot]
          constructor
          · intro _
            exact List.cons_prefix_cons.mpr ⟨rfl, List.nil_prefix⟩
          · intro _
            rfl
        · rw [goExtAux_other c rest hc1 hc2]
          constructor
          · intro h
            cases he : goExtAux rest with
            | nil => rw [he] at h; simp at h
            | cons e es => rw [he] at h; simp at h
          · intro h
            rw [List.cons_prefix_cons] at h
            exact absurd h.1.symm hc2
    · simp only [List.cons_append]
      have hdot' : '.' ∉ cs' := fun hm => hdot (by simp [hm])
      have hsep' : '/' ∉ cs' := fun hm => hsep (by simp [hm])
      by_cases hc1 : c = '/'
      · subst hc1
        rw [goExtAux_sep]
        constructor
        · intro h
          exact absurd h (by simp)
        · intro h
          rw [List.cons_prefix_cons] at h
          exact absurd (show ('/' : Char) ∈ c' :: cs' by simp [h.1]) hsep
      · by_cases hc2 : c = '.'
        · subst hc2
          rw [goExtAux_dot]
          constructor
          · intro h
            have := congrArg List.length h
            simp at this
          · intro h
            rw [List.cons_prefix_cons] at h
            exact absurd (show ('.' : Char) ∈ c' :: cs' by simp [h.1]) hdot
        · rw [goExtAux_other c rest hc1 hc2]
          constructor
          · intro h
            cases he : goExtAux rest with
            | nil => rw [he] at h; simp at h
            | cons e es =>
                rw [he] at h
                simp only [List.cons.injEq] at h
                obtain ⟨hc, htail⟩ := h
                have hpre : cs' ++ ['.'] <+: rest := (ih cs' hdot' hsep').mp (by rw [he, htail])
                exact List.cons_prefix_cons.mpr ⟨hc.symm, hpre⟩
          · intro h
            rw [List.cons_prefix_cons] at h
            obtain ⟨hc, htail⟩ := h
            rw [(ih cs' hdot' hsep').mpr htail]
            rcases cs' with _ | ⟨d, ds⟩
            · simp [hc]
            · simp [hc]

/-- The extension test is equivalent to a suffix test on the path, for a
concrete extension with no interior dot or separator. -/
lemma goFilepathExt_eq_iff (p ext : List Char) (cs : List Char)
    (hrev : ext.reverse = cs ++ ['.']) (hd : '.' ∉ cs) (hs : '/' ∉ cs) :
    (goFilepathExt p = ext ↔ ext <:+ p) := by
  unfold goFilepathExt
  constructor
  · intro h
    have h2 : goExtAux p.reverse = ext.reverse := by
      have := congrArg List.reverse h
      simpa using this
    rw [hrev] at h2
    have := (goExtAux_eq_iff p.reverse cs hd hs).mp h2
    rw [← hrev] at this
    exact List.reverse_prefix.mp this
  · intro h
    have : ext.reverse <+: p.reverse := List.reverse_prefix.mpr h
    rw [hrev] at this
    have := (goExtAux_eq_iff p.reverse cs hd hs).mpr this
    rw [this, ← hrev]
    simp

/-- Routing characterisation: Segment mode exactly for paths ending in
`.ts` or `.mp4`. -/
lemma uploadMode_segment_iff (path : List Char) :
    uploadMode path = ArtifactClass.segment ↔
      (".ts".toList <:+ path ∨ ".mp4".toList <:+ path) := by
  have hts : goFilepathExt path = ".ts".toList ↔ ".ts".toList <:+ path :=
    goFilepathExt_eq_iff path ".ts".toList ['s', 't'] (by decide) (by decide) (by decide)
  have hmp4 : goFilepathExt path = ".mp4".toList ↔ ".mp4".toList <:+ path :=
    goFilepathExt_eq_iff path ".mp4".toList ['4', 'p', 'm'] (by decide) (by decide) (by decide)
  unfold uploadMode
  split_ifs with h
  · constructor
    · intro _
      rcases h with h | h
      · exact Or.inl (hts.mp h)
      · exact Or.inr (hmp4.mp h)
    · intro _
      rfl
  · constructor
    · intro hc
      exact absurd hc (by decide)
    · intro hd
      rcases hd with hd | hd
      · exact absurd (Or.inl (hts.mpr hd)) h
      · exact absurd (Or.inr (hmp4.mpr hd)) h

/-- Claim C4: `Upload` routes every destination by file extension, computed
once from the destination path before any input is read: a path ending in
`.ts` or `.mp4` is always processed in Segment mode, every other path in
Manifest mode. -/
theorem upload_routes_by_extension (path : List Char) :
    (uploadMode path = ArtifactClass.segment ↔
      (".ts".toList <:+ path ∨ ".mp4".toList <:+ path)) ∧
    (uploadMode path = ArtifactClass.manifest ↔
      ¬(".ts".toList <:+ path ∨ ".mp4".toList <:+ path)) := by
  refine ⟨uploadMode_segment_iff path, ?_⟩
  rw [← uploadMode_segment_iff path]
  cases hm : uploadMode path <;> simp [hm]

/-- Model of Go `strings.Index(s, sub)` on rune lists: the first index at
which `sub` occurs in `s`, `none` when it does not occur. -/
def findSub (sub : List Char) : List Char → Option Nat
  | [] => if sub.isPrefixOf [] then some 0 else none
  | c :: t => if sub.isPrefixOf (c :: t) then some 0 else (findSub sub t).map (· + 1)

/-- Model of Go `strings.Contains(s, sub)`. -/
def containsSub (s sub : List Char) : Bool := (findSub sub s).isSome

/-- Model of Go `strings.Replace(s, old, new, 1)`: replace the first
occurrence of `old` in `s` by `new`, or return `s` unchanged when `old`
does not occur. -/
def goReplaceOnce (s old new : List Char) : List Char :=
  match findSub old s with
  | some i => s.take i ++ new ++ s.drop (i + old.length)
  | none => s

/-- Model of `buildBackupURI` from src/core/uploader.go, parameterised by one
iteration order of the Go map `storageFallbackURLs` (a `map[string]string`,
whose `range` order is unspecified): scan the pairs in that order, and on the
first pair whose primary is a string prefix of the destination URI, replace
its first occurrence by the backup prefix.  `url.Parse` of the substituted
string is kept abstract (the substituted string stands for the parsed URI). -/
def buildBackupURI : List (List Char × List Char) → List Char → Option (List Char)
  | [], _ => none
  | (primaryPre, backupPre) :: rest, dest =>
    if primaryPre.isPrefixOf dest then some (goReplaceOnce dest primaryPre backupPre)
    else buildBackupURI rest dest

/-- Model of `drivers.SaveDataOutput` (external go-tools type): only the
resulting URI matters to the claims. -/
structure SaveDataOutput where
  uri : List Char
deriving DecidableEq

/-- Result triple of one `uploadFile` call: `(out, bytesWritten, err)`. -/
structure UFResult where
  out : Option SaveDataOutput
  bytesWritten : Nat
  err : Option (List Char)
deriving DecidableEq

/-- The combined error built by `uploadFileWithBackup` when both the primary
and the backup write fail:
`fmt.Errorf("upload file errors: primary: %w; backup: %w", primaryErr, err)`. -/
def combineErrs (primaryErr backupErr : List Char) : List Char :=
  "upload file errors: primary: ".toList ++ primaryErr ++ "; backup: ".toList ++ backupErr

/-- One attempt of the `backoff.Retry` operation inside
`uploadFileWithBackup`: try the primary `uploadFile` (result supplied as the
oracle `primaryRes`); on failure build the backup URI; when no mapping
matches, the lookup error is only logged and the attempt resolves to the
primary result; otherwise try the backup `uploadFile` (oracle `backupRes`),
and when it also fails combine both errors. -/
def attemptWithBackup (fallbacks : List (List Char × List Char)) (dest : List Char)
    (primaryRes backupRes : UFResult) : UFResult :=
  match primaryRes.err with
  | none => primaryRes
  | some primaryErr =>
    match buildBackupURI fallbacks dest with
    | none => primaryRes
    | some _ =>
      match backupRes.err with
      | none => backupRes
      | some backupErr => { backupRes with err := some (combineErrs primaryErr backupErr) }

/-- Model of `backoff.Retry`: run the first attempt; on an error, move to the
next scheduled attempt until the schedule is exhausted, returning the result
of the last attempt executed.  `NoRetries` (`backoff.StopBackOff`) is the
empty schedule: only the first attempt runs. -/
def backoffRetry : UFResult → List UFResult → UFResult
  | r, [] => r
  | r, r2 :: rest =>
    match r.err with
    | none => r
    | some _ => backoffRetry r2 rest

/-- Model of `uploadFileWithBackup`: the per-attempt primary and backup
`uploadFile` outcomes are supplied as oracles, one pair per scheduled
attempt (`first` always runs; `rest` are the retries the active backoff
policy grants — empty for `NoRetries`). -/
def uploadFileWithBackup (fallbacks : List (List Char × List Char)) (dest : List Char)
    (first : UFResult × UFResult) (rest : List (UFResult × UFResult)) : UFResult :=
  backoffRetry (attemptWithBackup fallbacks dest first.1 first.2)
    (rest.map fun x => attemptWithBackup fallbacks dest x.1 x.2)

/-- Model of `backoff.ExponentialBackOff` wait scheduling with instantaneous
operations and no randomisation, in milliseconds: a retry is granted while
the elapsed time does not exceed `maxElapsedMs`; each wait multiplies the
interval by 1.5 capped at `maxIntervalMs`.  Returns the list of waits, one
per granted retry. -/
def expBackoffSchedule : Nat → Nat → Nat → Nat → Nat → List Nat
  | _, _, _, _, 0 => []
  | elapsedMs, intervalMs, maxIntervalMs, maxElapsedMs, fuel + 1 =>
    if maxElapsedMs < elapsedMs then []
    else intervalMs ::
      expBackoffSchedule (elapsedMs + intervalMs) (min (intervalMs * 3 / 2) maxIntervalMs)
        maxIntervalMs maxElapsedMs fuel

/-- The retry schedule of `UploadRetryBackoff()` (initial 30s, max interval
4min, max elapsed 15min), for instantaneous failing attempts. -/
def uploadRetryScheduleMs (fuel : Nat) : List Nat :=
  expBackoffSchedule 0 30000 240000 900000 fuel

/-- The two outer retry policies selected by the `withRetries` flag in
`uploadFileWithBackup` (`NoRetries()` versus `UploadRetryBackoff()`). -/
inductive RetryProfile : Type
  | persistent : RetryProfile
  | bestEffort : RetryProfile
deriving DecidableEq

/-- Model of the policy selection `retryPolicy := NoRetries(); if withRetries
{ retryPolicy = UploadRetryBackoff() }` in `uploadFileWithBackup`. -/
def retryProfileOf (withRetries : Bool) : RetryProfile :=
  if withRetries then RetryProfile.persistent else RetryProfile.bestEffort

instance : DecidableEq (Except (List Char) SaveDataOutput) := fun a b =>
  match a, b with
  | Except.ok x, Except.ok y => decidable_of_iff (x = y) (by simp)
  | Except.error x, Except.error y => decidable_of_iff (x = y) (by simp)
  | Except.ok _, Except.error _ => isFalse (by simp)
  | Except.error _, Except.ok _ => isFalse (by simp)

/-- One attempt of the `backoff.Retry` operation inside `uploadFile`: the
chunks the storage driver pulled through the `TeeReader` (counted by a fresh
`ByteCounter`), and the outcome of `session.SaveData`. -/
structure SaveAttempt where
  chunks : List (List Char)
  result : Except (List Char) SaveDataOutput
deriving DecidableEq

/-- Model of `ByteCounter`: `Write` adds `len(p)` to `Count`, so after an
attempt the counter holds the total length of the chunks consumed during
that attempt. -/
def byteCounterCount (chunks : List (List Char)) : Nat :=
  (chunks.map List.length).sum

/-- Bytes consumed from the input file during one attempt. -/
def SaveAttempt.consumed (a : SaveAttempt) : Nat := byteCounterCount a.chunks

/-- The `(out, bytesWritten, err)` state after one `uploadFile` attempt:
`bytesWritten` is set from the fresh counter of that attempt. -/
def saveAttemptResult (a : SaveAttempt) : UFResult :=
  match a.result with
  | Except.ok o => ⟨some o, a.consumed, none⟩
  | Except.error e => ⟨none, a.consumed, some e⟩

/-- Model of the retry loop of `uploadFile`: attempts run under the inner
retry policy (`SingleRequestRetryBackoff` when `withRetries`, else
`NoRetries`, i.e. `rest = []`); every attempt opens the file afresh and
counts its own bytes; the loop stops at the first success. -/
def uploadFile (firstAttempt : SaveAttempt) (rest : List SaveAttempt) : UFResult :=
  backoffRetry (saveAttemptResult firstAttempt) (rest.map saveAttemptResult)

/-- The attempt at which the retry loop stops: the first successful one, or
the last one when all fail. -/
def stopAttempt : SaveAttempt → List SaveAttempt → SaveAttempt
  | a, [] => a
  | a, b :: rest =>
    match a.result with
    | Except.ok _ => a
    | Except.error _ => stopAttempt b rest

/-- Model of `drivers.FileProperties` (external go-tools type): the fields
`uploadFile` touches. -/
structure FileProperties where
  cacheControl : List Char
  metadata : List (List Char × List Char)
deriving DecidableEq

/-- The `expiryField` map of src/core/uploader.go: objects deleted after
7 days. -/
def expiryField : List (List Char × List Char) :=
  [("Object-Expires".toList, "+168h".toList)]

/-- The substring that triggers the storj expiry hack in `uploadFile`. -/
def storjNeedle : List Char := "gateway.storjshare.io/catalyst-recordings-com".toList

/-- Model of the fields adjustment at the top of `uploadFile`: when the
output URI string contains `storjNeedle`, a copy of the caller's fields (the
zero value when the caller passed nil) gets its Metadata set to
`expiryField`; otherwise the caller's fields pass through unchanged. -/
def storjAdjustFields (outputStr : List Char) (fields : Option FileProperties) :
    Option FileProperties :=
  if containsSub outputStr storjNeedle then
    let storjFields := fields.getD ⟨[], []⟩
    some { storjFields with metadata := expiryField }
  else fields

lemma findSub_of_isPrefixOf (sub s : List Char) (hp : sub.isPrefixOf s = true) :
    findSub sub s = some 0 := by
  cases s <;> simp [findSub, hp]

lemma goReplaceOnce_of_isPrefixOf (dest sub new : List Char) (hp : sub.isPrefixOf dest = true) :
    goReplaceOnce dest sub new = new ++ dest.drop sub.length := by
  simp [goReplaceOnce, findSub_of_isPrefixOf sub dest hp]

/-- Claim C6 (amended): `buildBackupURI` selects the first mapping, in the
(unspecified) iteration order of the Go map, whose primary prefix is a
literal string prefix of the destination URI, and substitutes that prefix at
the front; only that one mapping is tried in the attempt. -/
theorem buildBackupURI_first_match (pre post : List (List Char × List Char))
    (p b dest : List Char)
    (hpre : ∀ q ∈ pre, q.1.isPrefixOf dest = false)
    (hp : p.isPrefixOf dest = true) :
    buildBackupURI (pre ++ (p, b) :: post) dest = some (b ++ dest.drop p.length) := by
  induction pre with
  | nil =>
    simp [buildBackupURI, hp, goReplaceOnce_of_isPrefixOf dest p b hp]
  | cons q t ih =>
    have hq : q.1.isPrefixOf dest = false := hpre q (by simp)
    have ht : ∀ x ∈ t, x.1.isPrefixOf dest = false := fun x hx => hpre x (by simp [hx])
    rcases q with ⟨q1, q2⟩
    rw [List.cons_append]
    simp only [buildBackupURI]
    rw [hq]
    simpa using ih ht

/-- Witness for `buildBackupURI_first_match` at a concrete map and URI. -/
theorem buildBackupURI_first_match_witness :
    (∀ q ∈ [("zz".toList, "w".toList)], q.1.isPrefixOf "abc".toList = false) ∧
    "a".toList.isPrefixOf "abc".toList = true ∧
    buildBackupURI [("zz".toList, "w".toList), ("a".toList, "B".toList), ("ab".toList, "C".toList)]
        "abc".toList = some ("B".toList ++ "abc".toList.drop "a".toList.length) :=
  ⟨by decide, by decide,
    buildBackupURI_first_match [("zz".toList, "w".toList)] [("ab".toList, "C".toList)]
      "a".toList "B".toList "abc".toList (by decide) (by decide)⟩

/-- Claim C6 counterexample: the failover mappings live in a Go
`map[string]string`, whose `range` iteration order is unspecified; two
iteration orders of the same map (a permutation) give different backup URIs
for the same destination, so the selected mapping is not determined by the
mapping contents plus a fixed given order. -/
theorem buildBackupURI_iteration_order_dependent :
    List.Perm [("a".toList, "x".toList), ("ab".toList, "y".toList)]
      [("ab".toList, "y".toList), ("a".toList, "x".toList)] ∧
    buildBackupURI [("a".toList, "x".toList), ("ab".toList, "y".toList)] "abc".toList ≠
      buildBackupURI [("ab".toList, "y".toList), ("a".toList, "x".toList)] "abc".toList := by
  exact ⟨by decide, by decide⟩

/-- Claim C8: the `bytesWritten` value returned by the `uploadFile` retry
loop equals the bytes consumed (counted by that attempt's fresh ByteCounter)
during the attempt at which the loop stopped — the first successful attempt,
or the last attempt when all fail — never a sum over several attempts. -/
theorem uploadFile_bytesWritten_last_attempt (firstAttempt : SaveAttempt)
    (rest : List SaveAttempt) :
    (uploadFile firstAttempt rest).bytesWritten = (stopAttempt firstAttempt rest).consumed := by
  induction rest generalizing firstAttempt with
  | nil =>
    cases h : firstAttempt.result <;>
      simp [uploadFile, backoffRetry, stopAttempt, saveAttemptResult, h]
  | cons b t ih =>
    cases h : firstAttempt.result with
    | ok o =>
      simp [uploadFile, backoffRetry, stopAttempt, saveAttemptResult, h]
    | error e =>
      have h1 : uploadFile firstAttempt (b :: t) = uploadFile b t := by
        simp [uploadFile, backoffRetry, saveAttemptResult, h]
      have h2 : stopAttempt firstAttempt (b :: t) = stopAttempt b t := by
        simp [stopAttempt, h]
      rw [h1, h2, ih]

/-- Claim C10: when the destination URI string contains the storj recordings
gateway needle, the save request carries a copy of the caller's fields whose
Metadata is the Object-Expires = +168h map, the other field values taken
from the caller (zero value when the caller passed none); any other
destination gets the caller's fields unchanged. -/
theorem uploadFile_storj_expiry (s : List Char) (fields : Option FileProperties) :
    (containsSub s storjNeedle = true →
      storjAdjustFields s fields =
        some ⟨(fields.getD ⟨[], []⟩).cacheControl, expiryField⟩) ∧
    (containsSub s storjNeedle = false → storjAdjustFields s fields = fields) := by
  constructor <;> intro h <;> simp [storjAdjustFields, h]

/-- Witness for `uploadFile_storj_expiry`: a storj recordings URI gets the
expiry metadata attached, any other URI passes the fields through. -/
theorem uploadFile_storj_expiry_witness :
    (containsSub "s3://gateway.storjshare.io/catalyst-recordings-com/a.ts".toList storjNeedle = true ∧
      storjAdjustFields "s3://gateway.storjshare.io/catalyst-recordings-com/a.ts".toList
        (some ⟨"max-age=1".toList, []⟩) = some ⟨"max-age=1".toList, expiryField⟩) ∧
    (containsSub "s3://other/a.ts".toList storjNeedle = false ∧
      storjAdjustFields "s3://other/a.ts".toList (some ⟨"max-age=1".toList, []⟩) =
        some ⟨"max-age=1".toList, []⟩) :=
  ⟨⟨by decide,
    (uploadFile_storj_expiry "s3://gateway.storjshare.io/catalyst-recordings-com/a.ts".toList
      (some ⟨"max-age=1".toList, []⟩)).1 (by decide)⟩,
   ⟨by decide,
    (uploadFile_storj_expiry "s3://other/a.ts".toList (some ⟨"max-age=1".toList, []⟩)).2
      (by decide)⟩⟩

lemma attemptWithBackup_of_primary_ok (fallbacks : List (List Char × List Char))
    (dest : List Char) (pr br : UFResult) (h : pr.err = none) :
    attemptWithBackup fallbacks dest pr br = pr := by
  simp [attemptWithBackup, h]

lemma attemptWithBackup_of_backup_ok (fallbacks : List (List Char × List Char))
    (dest u : List Char) (hb : buildBackupURI fallbacks dest = some u)
    (pr br : UFResult) (pe : List Char) (hp : pr.err = some pe) (h2 : br.err = none) :
    attemptWithBackup fallbacks dest pr br = br := by
  simp [attemptWithBackup, hp, hb, h2]

lemma attemptWithBackup_err_none_iff (fallbacks : List (List Char × List Char))
    (dest u : List Char) (hb : buildBackupURI fallbacks dest = some u)
    (pr br : UFResult) :
    (attemptWithBackup fallbacks dest pr br).err = none ↔
      (pr.err = none ∨ br.err = none) := by
  cases hp : pr.err with
  | none => simp [attemptWithBackup, hp]
  | some pe =>
    cases hbr : br.err with
    | none => simp [attemptWithBackup, hp, hb, hbr]
    | some be => simp [attemptWithBackup, hp, hb, hbr]

lemma attemptWithBackup_err_some (fallbacks : List (List Char × List Char))
    (dest u : List Char) (hb : buildBackupURI fallbacks dest = some u)
    (pr br : UFResult) (e : List Char)
    (h : (attemptWithBackup fallbacks dest pr br).err = some e) :
    ∃ pe be, pr.err = some pe ∧ br.err = some be ∧ e = combineErrs pe be := by
  cases hp : pr.err with
  | none =>
    rw [attemptWithBackup_of_primary_ok fallbacks dest pr br hp, hp] at h
    cases h
  | some pe =>
    cases hbr : br.err with
    | none => simp [attemptWithBackup, hp, hb, hbr] at h
    | some be =>
      refine ⟨pe, be, rfl, rfl, ?_⟩
      simp [attemptWithBackup, hp, hb, hbr] at h
      exact h.symm

lemma backoffRetry_mem (r : UFResult) (rest : List UFResult) :
    backoffRetry r rest ∈ r :: rest := by
  induction rest generalizing r with
  | nil => simp [backoffRetry]
  | cons b t ih =>
    cases hr : r.err with
    | none => simp [backoffRetry, hr]
    | some e =>
      have hred : backoffRetry r (b :: t) = backoffRetry b t := by
        simp [backoffRetry, hr]
      rw [hred]
      exact List.mem_cons_of_mem r (ih b)

lemma backoffRetry_err_none_iff (r : UFResult) (rest : List UFResult) :
    (backoffRetry r rest).err = none ↔ ∃ x ∈ r :: rest, x.err = none := by
  induction rest generalizing r with
  | nil => simp [backoffRetry]
  | cons b t ih =>
    cases hr : r.err with
    | none => simp [backoffRetry, hr]
    | some e =>
      have hred : backoffRetry r (b :: t) = backoffRetry b t := by
        simp [backoffRetry, hr]
      rw [hred, ih b]
      constructor
      · rintro ⟨x, hx, he⟩
        exact ⟨x, List.mem_cons_of_mem r hx, he⟩
      · rintro ⟨x, hx, he⟩
        rcases List.mem_cons.mp hx with rfl | hx'
        · rw [hr] at he
          cases he
        · exact ⟨x, hx', he⟩

lemma uploadFileWithBackup_mem (fallbacks : List (List Char × List Char))
    (dest : List Char) (first : UFResult × UFResult) (rest : List (UFResult × UFResult)) :
    ∃ x ∈ first :: rest,
      uploadFileWithBackup fallbacks dest first rest = attemptWithBackup fallbacks dest x.1 x.2 := by
  have h := backoffRetry_mem (attemptWithBackup fallbacks dest first.1 first.2)
    (rest.map fun x => attemptWithBackup fallbacks dest x.1 x.2)
  rcases List.mem_cons.mp h with h1 | h2
  · exact ⟨first, by simp, h1⟩
  · rcases List.mem_map.mp h2 with ⟨x, hx, hfx⟩
    exact ⟨x, List.mem_cons_of_mem first hx, hfx.symm⟩

/-- Claim C2: for every call to `uploadFileWithBackup` whose destination has
a matching failover mapping, the returned error is nil exactly when some
attempt's primary write or its substituted backup write succeeds (failover
success means call success, the returned result being the backup write's
result); and when it returns an error, the final attempt had both writes
fail and the single error message contains both the primary and the backup
failure causes. -/
theorem uploadFileWithBackup_failover_error_semantics
    (fallbacks : List (List Char × List Char)) (dest u : List Char)
    (first : UFResult × UFResult) (rest : List (UFResult × UFResult))
    (hb : buildBackupURI fallbacks dest = some u) :
    ((uploadFileWithBackup fallbacks dest first rest).err = none ↔
      ∃ x ∈ first :: rest, x.1.err = none ∨ x.2.err = none) ∧
    (∀ e, (uploadFileWithBackup fallbacks dest first rest).err = some e →
      ∃ x ∈ first :: rest, ∃ pe be, x.1.err = some pe ∧ x.2.err = some be ∧
        pe <:+: e ∧ be <:+: e) ∧
    ((uploadFileWithBackup fallbacks dest first rest).err = none →
      ∃ x ∈ first :: rest,
        (x.1.err = none ∧ uploadFileWithBackup fallbacks dest first rest = x.1) ∨
        (x.1.err ≠ none ∧ x.2.err = none ∧
          uploadFileWithBackup fallbacks dest first rest = x.2)) := by
  refine ⟨?_, ?_, ?_⟩
  · rw [uploadFileWithBackup, backoffRetry_err_none_iff]
    constructor
    · rintro ⟨y, hy, hye⟩
      rcases List.mem_cons.mp hy with rfl | hy'
      · exact ⟨first, by simp,
          (attemptWithBackup_err_none_iff fallbacks dest u hb first.1 first.2).mp hye⟩
      · rcases List.mem_map.mp hy' with ⟨x, hx, rfl⟩
        exact ⟨x, List.mem_cons_of_mem first hx,
          (attemptWithBackup_err_none_iff fallbacks dest u hb x.1 x.2).mp hye⟩
    · rintro ⟨x, hx, hxe⟩
      rcases List.mem_cons.mp hx with rfl | hx'
      · exact ⟨attemptWithBackup fallbacks dest x.1 x.2, by simp,
          (attemptWithBackup_err_none_iff fallbacks dest u hb x.1 x.2).mpr hxe⟩
      · refine ⟨attemptWithBackup fallbacks dest x.1 x.2, ?_,
          (attemptWithBackup_err_none_iff fallbacks dest u hb x.1 x.2).mpr hxe⟩
        exact List.mem_cons_of_mem _ (List.mem_map.mpr ⟨x, hx', rfl⟩)
  · intro e he
    rcases uploadFileWithBackup_mem fallbacks dest first rest with ⟨x, hx, hres⟩
    rw [hres] at he
    rcases attemptWithBackup_err_some fallbacks dest u hb x.1 x.2 e he with
      ⟨pe, be, hpe, hbe, hcomb⟩
    refine ⟨x, hx, pe, be, hpe, hbe, ?_, ?_⟩
    · refine ⟨"upload file errors: primary: ".toList, "; backup: ".toList ++ be, ?_⟩
      rw [hcomb]
      simp [combineErrs]
    · refine ⟨"upload file errors: primary: ".toList ++ pe ++ "; backup: ".toList, [], ?_⟩
      rw [hcomb]
      simp [combineErrs]
  · intro he
    rcases uploadFileWithBackup_mem fallbacks dest first rest with ⟨x, hx, hres⟩
    rw [hres] at he
    refine ⟨x, hx, ?_⟩
    cases hp : x.1.err with
    | none =>
      left
      exact ⟨rfl, by rw [hres, attemptWithBackup_of_primary_ok fallbacks dest x.1 x.2 hp]⟩
    | some pe =>
      right
      cases hbr : x.2.err with
      | none =>
        exact ⟨by simp [hp], rfl,
          by rw [hres, attemptWithBackup_of_backup_ok fallbacks dest u hb x.1 x.2 pe hp hbr]⟩
      | some be =>
        rw [(attemptWithBackup_err_none_iff fallbacks dest u hb x.1 x.2)] at he
        rcases he with h | h
        · rw [hp] at h; cases h
        · rw [hbr] at h; cases h

/-- Witness for `uploadFileWithBackup_failover_error_semantics`: the primary
write fails once, the substituted backup write succeeds, and the call
returns no error. -/
theorem uploadFileWithBackup_failover_witness :
    buildBackupURI [("a".toList, "b".toList)] "ax".toList = some "bx".toList ∧
    (uploadFileWithBackup [("a".toList, "b".toList)] "ax".toList
      (⟨none, 3, some "p-err".toList⟩, ⟨some ⟨"bx".toList⟩, 3, none⟩) []).err = none :=
  ⟨by decide,
    (uploadFileWithBackup_failover_error_semantics [("a".toList, "b".toList)] "ax".toList
        "bx".toList (⟨none, 3, some "p-err".toList⟩, ⟨some ⟨"bx".toList⟩, 3, none⟩) []
        (by decide)).1.mpr
      ⟨(⟨none, 3, some "p-err".toList⟩, ⟨some ⟨"bx".toList⟩, 3, none⟩), by simp,
        Or.inr rfl⟩⟩

/-- Claim C7 (amended): when an attempt's primary write fails and no failover
mapping's primary prefix matches the destination, the backup is not
attempted and the attempt resolves to the primary failure alone (the mapping
lookup error is only logged, never returned); under the no-retry profile
used for manifest flushes (empty retry schedule) this primary error is the
call's immediate result. -/
theorem uploadFileWithBackup_no_mapping (fallbacks : List (List Char × List Char))
    (dest : List Char) (hb : buildBackupURI fallbacks dest = none)
    (pr br : UFResult) (pe : List Char) (hpe : pr.err = some pe) :
    attemptWithBackup fallbacks dest pr br = pr ∧
    uploadFileWithBackup fallbacks dest (pr, br) [] = pr := by
  have h1 : attemptWithBackup fallbacks dest pr br = pr := by
    simp [attemptWithBackup, hpe, hb]
  exact ⟨h1, by simp [uploadFileWithBackup, backoffRetry, h1]⟩

/-- Witness for `uploadFileWithBackup_no_mapping` at a concrete failing
primary attempt with an empty failover map. -/
theorem uploadFileWithBackup_no_mapping_witness :
    buildBackupURI [] "dest".toList = none ∧
    (⟨none, 0, some "boom".toList⟩ : UFResult).err = some "boom".toList ∧
    uploadFileWithBackup [] "dest".toList
        (⟨none, 0, some "boom".toList⟩, ⟨none, 0, some "unused".toList⟩) [] =
      ⟨none, 0, some "boom".toList⟩ :=
  ⟨rfl, rfl,
    (uploadFileWithBackup_no_mapping [] "dest".toList rfl
      ⟨none, 0, some "boom".toList⟩ ⟨none, 0, some "unused".toList⟩ "boom".toList rfl).2⟩

/-- Claim C7 counterexample: with the retrying (persistent) profile — whose
exponential schedule grants at least one retry after a fast first failure —
a first attempt that fails with no matching failover mapping is retried, and
the call succeeds on the second attempt instead of surfacing the failure
immediately. -/
theorem uploadFileWithBackup_no_mapping_retried :
    buildBackupURI [] "dest".toList = none ∧
    1 ≤ (uploadRetryScheduleMs 64).length ∧
    (uploadFileWithBackup [] "dest".toList
        (⟨none, 0, some "primary failure".toList⟩, ⟨none, 0, some "unused".toList⟩)
        [(⟨some ⟨"u".toList⟩, 7, none⟩, ⟨none, 0, none⟩)]).err = none := by
  exact ⟨rfl, by decide, by decide⟩

/-- Concatenation of the records appended so far to the manifest temp
file. -/
def concatBytes (rs : List (List Char)) : List Char := rs.foldr (· ++ ·) []

/-- One flush call issued by the Manifest branch of `Upload`: the temp-file
content uploaded, and the `withRetries` flag passed to
`uploadFileWithBackup`. -/
structure FlushEvent where
  payload : List Char
  withRetries : Bool
deriving DecidableEq

/-- Model of the Manifest scanner loop of `Upload`: each record delivered by
the custom scanner is appended to the temp file; when the write interval has
elapsed (oracle `flushAfter`, one decision per record, standing for
`lastWrite.Add(waitBetweenWrites).Before(time.Now())`), a periodic flush of
the whole file is issued with `withRetries = false`; flush failures do not
feed back into the file content (the code only logs them). -/
def manifestLoop (flushAfter : Nat → Bool) :
    List (List Char) → Nat → List Char → List FlushEvent → List Char × List FlushEvent
  | [], _, acc, evs => (acc, evs)
  | r :: rest, k, acc, evs =>
    manifestLoop flushAfter rest (k + 1) (acc ++ r)
      (if flushAfter k then evs ++ [⟨acc ++ r, false⟩] else evs)

/-- All flush calls of one Manifest-mode `Upload` run: the periodic flushes
followed by the mandatory final flush, which also passes
`withRetries = false`. -/
def manifestEvents (records : List (List Char)) (flushAfter : Nat → Bool) : List FlushEvent :=
  (manifestLoop flushAfter records 0 [] []).2 ++
    [⟨(manifestLoop flushAfter records 0 [] []).1, false⟩]

/-- Model of Manifest-mode `Upload`'s return value: intermediate flush
errors are only logged; the final flush's error (oracle `flushErr`, indexed
by flush position) is wrapped and returned. -/
def manifestUploadResult (records : List (List Char)) (flushAfter : Nat → Bool)
    (flushErr : Nat → Option (List Char)) : Option (List Char) :=
  match flushErr ((manifestEvents records flushAfter).length - 1) with
  | some e => some ("failed to write final save: ".toList ++ e)
  | none => none

/-- Ordering of flush events by payload extension. -/
def payloadLe (a b : FlushEvent) : Prop := a.payload <+: b.payload

lemma manifestLoop_fst (flushAfter : Nat → Bool) :
    ∀ (rs : List (List Char)) (k : Nat) (acc : List Char) (evs : List FlushEvent),
      (manifestLoop flushAfter rs k acc evs).1 = acc ++ concatBytes rs := by
  intro rs
  induction rs with
  | nil => intro k acc evs; simp [manifestLoop, concatBytes]
  | cons r rest ih =>
    intro k acc evs
    rw [manifestLoop, ih]
    simp [concatBytes]

lemma manifestLoop_snd (flushAfter : Nat → Bool) :
    ∀ (rs : List (List Char)) (k : Nat) (acc : List Char) (evs : List FlushEvent),
      (manifestLoop flushAfter rs k acc evs).2 =
        evs ++ ((List.range' k rs.length).filter fun i => flushAfter i).map
          fun i => ⟨acc ++ concatBytes (rs.take (i - k + 1)), false⟩ := by
  intro rs
  induction rs with
  | nil =>
    intro k acc evs
    simp [manifestLoop]
  | cons r rest ih =>
    intro k acc evs
    have hmap : ∀ (L : List Nat), (∀ i ∈ L, k + 1 ≤ i) →
        (L.map fun i =>
            (⟨acc ++ r ++ concatBytes (rest.take (i - (k + 1) + 1)), false⟩ : FlushEvent)) =
          L.map fun i => ⟨acc ++ concatBytes ((r :: rest).take (i - k + 1)), false⟩ := by
      intro L hL
      apply List.map_congr_left
      intro i hi
      have h1 : i - k + 1 = (i - (k + 1) + 1) + 1 := by
        have := hL i hi
        omega
      rw [h1, List.take_succ_cons]
      simp [concatBytes]
    have hbound : ∀ i ∈ (List.range' (k + 1) rest.length).filter fun i => flushAfter i,
        k + 1 ≤ i := by
      intro i hi
      exact (List.mem_range'_1.mp (List.mem_of_mem_filter hi)).1
    rw [manifestLoop, ih (k + 1) (acc ++ r), List.length_cons, List.range'_succ]
    by_cases hf : flushAfter k = true
    · rw [if_pos hf, List.filter_cons_of_pos hf, List.map_cons]
      rw [hmap _ hbound]
      have hhead : (⟨acc ++ r, false⟩ : FlushEvent) =
          ⟨acc ++ concatBytes ((r :: rest).take (k - k + 1)), false⟩ := by
        simp [concatBytes]
      rw [List.append_assoc]
      rw [hhead]
      rfl
    · rw [if_neg (by simp [hf]), List.filter_cons_of_neg (by simp [hf])]
      rw [hmap _ hbound]

lemma manifestLoop_chain (flushAfter : Nat → Bool) :
    ∀ (rs : List (List Char)) (k : Nat) (acc : List Char) (evs : List FlushEvent),
      List.Chain' payloadLe evs → (∀ ev ∈ evs, ev.payload <+: acc) →
      List.Chain' payloadLe (manifestLoop flushAfter rs k acc evs).2 ∧
        ∀ ev ∈ (manifestLoop flushAfter rs k acc evs).2,
          ev.payload <+: (manifestLoop flushAfter rs k acc evs).1 := by
  intro rs
  induction rs with
  | nil =>
    intro k acc evs hchain hacc
    exact ⟨hchain, hacc⟩
  | cons r rest ih =>
    intro k acc evs hchain hacc
    rw [manifestLoop]
    by_cases hf : flushAfter k = true
    · rw [if_pos hf]
      apply ih
      · rw [List.chain'_append]
        refine ⟨hchain, List.chain'_singleton _, ?_⟩
        intro x hx y hy
        simp at hy
        rw [← hy]
        have hx' : x ∈ evs := by
          rcases List.mem_getLast?_eq_getLast hx with ⟨hne, rfl⟩
          exact List.getLast_mem hne
        exact List.IsPrefix.trans (hacc x hx') (List.prefix_append acc r)
      · intro ev hev
        rcases List.mem_append.mp hev with h1 | h1
        · exact List.IsPrefix.trans (hacc ev h1) (List.prefix_append acc r)
        · simp at h1
          simp [h1]
    · rw [if_neg (by simp [hf])]
      apply ih
      · exact hchain
      · intro ev hev
        exact List.IsPrefix.trans (hacc ev hev) (List.prefix_append acc r)

/-- Claim C1: in Manifest mode the flush calls are exactly one periodic
flush per record index at which the write interval had elapsed, carrying
the ordered concatenation of all records consumed through that index,
followed by the final flush carrying the full concatenation; successive
flush payloads only ever extend by appending (prefix chain).  The
flush-outcome oracle does not appear in the payloads at all, so which
intermediate flushes failed cannot change any payload or the final
object. -/
theorem manifest_flush_payloads (records : List (List Char)) (flushAfter : Nat → Bool) :
    manifestEvents records flushAfter =
      (((List.range records.length).filter fun i => flushAfter i).map
        fun i => ⟨concatBytes (records.take (i + 1)), false⟩) ++
        [⟨concatBytes records, false⟩] ∧
    List.Chain' payloadLe (manifestEvents records flushAfter) ∧
    ((manifestEvents records flushAfter).getLastD ⟨[], false⟩).payload =
      concatBytes records := by
  have hfst : (manifestLoop flushAfter records 0 [] []).1 = concatBytes records := by
    rw [manifestLoop_fst]
    simp
  have hch := manifestLoop_chain flushAfter records 0 [] [] (List.chain'_nil)
    (by intro ev hev; cases hev)
  refine ⟨?_, ?_, ?_⟩
  · rw [manifestEvents, hfst, manifestLoop_snd flushAfter records 0 [] []]
    rw [List.nil_append, List.range_eq_range']
    congr 1
  · rw [manifestEvents]
    rw [List.chain'_append]
    refine ⟨hch.1, List.chain'_singleton _, ?_⟩
    intro x hx y hy
    simp at hy
    rw [← hy]
    have hx' : x ∈ (manifestLoop flushAfter records 0 [] []).2 := by
      rcases List.mem_getLast?_eq_getLast hx with ⟨hne, rfl⟩
      exact List.getLast_mem hne
    show x.payload <+: (manifestLoop flushAfter records 0 [] []).1
    exact hch.2 x hx'
  · rw [manifestEvents]
    rw [List.getLastD_concat]
    exact hfst

/-- Witness instantiating `manifest_flush_payloads` on a concrete record
stream and flush schedule. -/
theorem manifest_flush_payloads_witness :
    ((manifestEvents ["ab".toList, "c".toList] (fun k => k == 0)).getLastD
        ⟨[], false⟩).payload = concatBytes ["ab".toList, "c".toList] ∧
    concatBytes ["ab".toList, "c".toList] = "abc".toList :=
  ⟨(manifest_flush_payloads ["ab".toList, "c".toList] (fun k => k == 0)).2.2, by decide⟩

/-- Claim C3 (amended): when the input ends, Manifest mode issues exactly
one more flush, of the full payload; that final flush passes
`withRetries = false` to `uploadFileWithBackup`, i.e. it uses the
best-effort no-retry profile (not the persistent one); its error, if any,
is wrapped and returned to the caller of `Upload`, while success returns
nil. -/
theorem manifest_final_flush (records : List (List Char)) (flushAfter : Nat → Bool)
    (flushErr : Nat → Option (List Char)) :
    manifestEvents records flushAfter =
      (manifestLoop flushAfter records 0 [] []).2 ++ [⟨concatBytes records, false⟩] ∧
    retryProfileOf
        ((manifestEvents records flushAfter).getLastD ⟨[], false⟩).withRetries =
      RetryProfile.bestEffort ∧
    (∀ e, flushErr ((manifestEvents records flushAfter).length - 1) = some e →
      manifestUploadResult records flushAfter flushErr =
        some ("failed to write final save: ".toList ++ e)) ∧
    (flushErr ((manifestEvents records flushAfter).length - 1) = none →
      manifestUploadResult records flushAfter flushErr = none) := by
  have hfst : (manifestLoop flushAfter records 0 [] []).1 = concatBytes records := by
    rw [manifestLoop_fst]
    simp
  refine ⟨?_, ?_, ?_, ?_⟩
  · rw [manifestEvents, hfst]
  · rw [manifestEvents, List.getLastD_concat]
    rfl
  · intro e he
    rw [manifestUploadResult, he]
  · intro he
    rw [manifestUploadResult, he]

/-- Witness instantiating `manifest_final_flush` with a failing final
flush. -/
theorem manifest_final_flush_witness :
    (fun _ : Nat => some "final fail".toList)
        ((manifestEvents ["a".toList] (fun _ => false)).length - 1) =
      some "final fail".toList ∧
    manifestUploadResult ["a".toList] (fun _ => false)
        (fun _ => some "final fail".toList) =
      some ("failed to write final save: ".toList ++ "final fail".toList) :=
  ⟨rfl, (manifest_final_flush ["a".toList] (fun _ => false)
      (fun _ => some "final fail".toList)).2.2.1 "final fail".toList rfl⟩

/-- Claim C3 counterexample: at a concrete one-record stream the final flush
is issued with `withRetries = false`, selecting the best-effort no-retry
profile, not the persistent retry profile the claim asserts. -/
theorem manifest_final_flush_not_persistent :
    ((manifestEvents ["a".toList] (fun _ => false)).getLastD ⟨[], false⟩).withRetries =
      false ∧
    retryProfileOf
        ((manifestEvents ["a".toList] (fun _ => false)).getLastD ⟨[], false⟩).withRetries ≠
      RetryProfile.persistent := by
  exact ⟨by decide, by decide⟩

/-- The first error of the thumbnail fan-out (model of `errgroup.Wait`,
which reports one of the failed goroutines' errors; which one is immaterial
to the claims). -/
def firstSome : List (Option (List Char)) → Option (List Char)
  | [] => none
  | some e :: _ => some e
  | none :: rest => firstSome rest

/-- Trace of one `extractThumb` call: the destinations actually uploaded to,
and the returned error. -/
structure ThumbRun where
  uploads : List (List Char)
  err : Option (List Char)
deriving DecidableEq

/-- Model of `extractThumb` from src/core/uploader.go: skip entirely when a
disabled playback id occurs in the output path; then run ffmpeg (outcome
supplied by the `ffmpegErr` oracle together with its captured stdout/stderr
buffers) — on failure return the wrapped error without uploading anything;
on success fan out to the thumbnail destinations (the two `latest.png` URLs,
whose `url.JoinPath`/rewrite derivation is kept abstract as `thumbURLs`),
each upload outcome supplied by `thumbUploadErr`. -/
def extractThumb (outputPath : List Char) (disableThumbs : List (List Char))
    (ffmpegOut ffmpegErrBuf : List Char) (ffmpegErr : Option (List Char))
    (thumbURLs : List (List Char))
    (thumbUploadErr : List Char → Option (List Char)) : ThumbRun :=
  if disableThumbs.any (fun playbackID => containsSub outputPath playbackID) then
    ⟨[], none⟩
  else
    match ffmpegErr with
    | some e =>
      ⟨[], some ("ffmpeg failed[".toList ++ ffmpegOut ++ "] [".toList ++
        ffmpegErrBuf ++ "]: ".toList ++ e)⟩
    | none =>
      ⟨thumbURLs, firstSome (thumbURLs.map fun u =>
        (thumbUploadErr u).map fun e => "saving thumbnail failed: ".toList ++ e)⟩

/-- Model of the Segment branch of `Upload` after the input was copied to
the temp file: on a failed resilient write, return the wrapping error; on
success, run the thumbnail pipeline — whose outcome is only logged — and
return the write's result with a nil error. -/
def segmentUpload (dest : List Char) (ufwbRes : UFResult) (_thumb : ThumbRun) :
    Except (List Char) (Option SaveDataOutput) :=
  match ufwbRes.err with
  | some e =>
    Except.error ("failed to upload video ".toList ++ dest ++ ": (".toList ++
      (Nat.repr ufwbRes.bytesWritten).toList ++ " bytes) ".toList ++ e)
  | none => Except.ok ufwbRes.out

/-- Claim C5: when the segment write succeeded, `Upload` returns that
successful result with a nil error whatever the thumbnail pipeline did (its
outcome does not appear in the return value), and a failing external tool
makes `extractThumb` return before any thumbnail upload is attempted. -/
theorem segment_thumbnail_failure_ignored (dest outputPath : List Char)
    (ufwbRes : UFResult) (hok : ufwbRes.err = none) (thumb thumb2 : ThumbRun)
    (disableThumbs : List (List Char)) (ffmpegOut ffmpegErrBuf e : List Char)
    (thumbURLs : List (List Char)) (thumbUploadErr : List Char → Option (List Char)) :
    segmentUpload dest ufwbRes thumb = Except.ok ufwbRes.out ∧
    segmentUpload dest ufwbRes thumb = segmentUpload dest ufwbRes thumb2 ∧
    (extractThumb outputPath disableThumbs ffmpegOut ffmpegErrBuf (some e)
        thumbURLs thumbUploadErr).uploads = [] := by
  refine ⟨?_, ?_, ?_⟩
  · simp [segmentUpload, hok]
  · simp [segmentUpload, hok]
  · by_cases h : (disableThumbs.any fun playbackID => containsSub outputPath playbackID) = true
    · simp [extractThumb, h]
    · simp [extractThumb, h]

/-- Witness for `segment_thumbnail_failure_ignored`: a successful segment
write next to a failing ffmpeg run. -/
theorem segment_thumbnail_failure_ignored_witness :
    (⟨some ⟨"u".toList⟩, 9, none⟩ : UFResult).err = none ∧
    segmentUpload "s3://b/x.ts".toList ⟨some ⟨"u".toList⟩, 9, none⟩
        ⟨[], some "boom".toList⟩ = Except.ok (some ⟨"u".toList⟩) ∧
    (extractThumb "/x.ts".toList [] "".toList "".toList
        (some "exit status 1".toList) ["t1".toList] (fun _ => none)).uploads = [] :=
  ⟨rfl,
    (segment_thumbnail_failure_ignored "s3://b/x.ts".toList "/x.ts".toList
      ⟨some ⟨"u".toList⟩, 9, none⟩ rfl ⟨[], some "boom".toList⟩ ⟨[], none⟩ []
      "".toList "".toList "exit status 1".toList ["t1".toList] (fun _ => none)).1,
    (segment_thumbnail_failure_ignored "s3://b/x.ts".toList "/x.ts".toList
      ⟨some ⟨"u".toList⟩, 9, none⟩ rfl ⟨[], some "boom".toList⟩ ⟨[], none⟩ []
      "".toList "".toList "exit status 1".toList ["t1".toList] (fun _ => none)).2.2⟩

/-- Model of `OverwriteQueue.getLastMessage`: drain the queue, keeping the
most recently received element; with the queue empty, keep the current
payload. -/
def getLastMessage {α : Type} (current : α) : List α → α
  | [] => current
  | d :: rest => getLastMessage d rest

/-- Model of the retry loop inside `OverwriteQueue.workerLoop` for one
dequeued payload: at each try the worker first drains the payloads that
arrived on the channel since the previous drain (`arrive`, indexed by try
number, listed in arrival order), keeps only the newest, then attempts the
save (outcome oracle `saveOk`); it stops at the first success or after
`maxRetries` tries.  Returns the trace of (payload attempted, success).
The growing per-try save timeout does not influence which payload is saved
and is not modelled. -/
def workerAttempts {α : Type} (saveOk : Nat → Bool) (arrive : Nat → List α) :
    α → Nat → Nat → List (α × Bool)
  | _, _, 0 => []
  | data, t, fuel + 1 =>
    if saveOk t then [(getLastMessage data (arrive t), true)]
    else (getLastMessage data (arrive t), false) ::
      workerAttempts saveOk arrive (getLastMessage data (arrive t)) (t + 1) fuel

/-- All payloads available to the worker from try `t` through try `t + k`,
in enqueue order: the newest is the last. -/
def arrivalsThrough {α : Type} (arrive : Nat → List α) (t k : Nat) : List α :=
  ((List.range (k + 1)).map fun j => arrive (t + j)).flatten

lemma getLastMessage_eq_getLastD {α : Type} (current : α) (q : List α) :
    getLastMessage current q = q.getLastD current := by
  induction q generalizing current with
  | nil => rfl
  | cons d rest ih =>
    rw [getLastMessage, ih, List.getLastD_cons]

lemma getLastD_append {α : Type} (l₁ l₂ : List α) (d : α) :
    (l₁ ++ l₂).getLastD d = l₂.getLastD (l₁.getLastD d) := by
  induction l₁ generalizing d with
  | nil => rfl
  | cons a t ih =>
    rw [List.cons_append, List.getLastD_cons, ih, List.getLastD_cons]

lemma arrivalsThrough_zero {α : Type} (arrive : Nat → List α) (t : Nat) :
    arrivalsThrough arrive t 0 = arrive t := by
  unfold arrivalsThrough
  simp [List.range_succ]

lemma arrivalsThrough_succ {α : Type} (arrive : Nat → List α) (t k : Nat) :
    arrivalsThrough arrive t (k + 1) = arrive t ++ arrivalsThrough arrive (t + 1) k := by
  unfold arrivalsThrough
  rw [List.range_succ_eq_map, List.map_cons, List.flatten_cons, List.map_map,
    Nat.add_zero]
  exact congrArg (fun l => arrive t ++ List.flatten l)
    (List.map_congr_left fun j _ => by
      show arrive (t + (j + 1)) = arrive (t + 1 + j)
      congr 1
      omega)

lemma arrivalsThrough_snoc {α : Type} (arrive : Nat → List α) (t k : Nat) :
    arrivalsThrough arrive t (k + 1) =
      arrivalsThrough arrive t k ++ arrive (t + (k + 1)) := by
  unfold arrivalsThrough
  rw [List.range_succ, List.map_append, List.flatten_append]
  simp

lemma workerAttempts_getD_fst {α : Type} (saveOk : Nat → Bool) (arrive : Nat → List α) :
    ∀ (fuel : Nat) (d : α) (t k : Nat) (dflt : α × Bool),
      k < (workerAttempts saveOk arrive d t fuel).length →
      ((workerAttempts saveOk arrive d t fuel).getD k dflt).1 =
        (arrivalsThrough arrive t k).getLastD d := by
  intro fuel
  induction fuel with
  | zero =>
    intro d t k dflt h
    simp [workerAttempts] at h
  | succ n ih =>
    intro d t k dflt h
    by_cases hs : saveOk t = true
    · have hred : workerAttempts saveOk arrive d t (n + 1) =
          [(getLastMessage d (arrive t), true)] := by
        rw [workerAttempts, if_pos hs]
      rw [hred] at h
      simp at h
      subst h
      rw [hred]
      simp [arrivalsThrough_zero, getLastMessage_eq_getLastD]
    · have hred : workerAttempts saveOk arrive d t (n + 1) =
          (getLastMessage d (arrive t), false) ::
            workerAttempts saveOk arrive (getLastMessage d (arrive t)) (t + 1) n := by
        rw [workerAttempts, if_neg (by simp [hs])]
      rw [hred] at h ⊢
      cases k with
      | zero =>
        simp [arrivalsThrough_zero, getLastMessage_eq_getLastD]
      | succ j =>
        rw [List.getD_cons_succ]
        have h' : j < (workerAttempts saveOk arrive (getLastMessage d (arrive t))
            (t + 1) n).length := by
          simpa using h
        rw [ih (getLastMessage d (arrive t)) (t + 1) j dflt h']
        rw [arrivalsThrough_succ, getLastD_append, getLastMessage_eq_getLastD]

lemma workerAttempts_getD_step {α : Type} (saveOk : Nat → Bool) (arrive : Nat → List α)
    (fuel : Nat) (d : α) (t k : Nat) (dflt : α × Bool)
    (h2 : k + 1 < (workerAttempts saveOk arrive d t fuel).length) :
    ((workerAttempts saveOk arrive d t fuel).getD (k + 1) dflt).1 =
      (arrive (t + (k + 1))).getLastD
        (((workerAttempts saveOk arrive d t fuel).getD k dflt).1) := by
  have h1 : k < (workerAttempts saveOk arrive d t fuel).length := by omega
  rw [workerAttempts_getD_fst saveOk arrive fuel d t (k + 1) dflt h2,
    workerAttempts_getD_fst saveOk arrive fuel d t k dflt h1,
    arrivalsThrough_snoc, getLastD_append]

lemma workerAttempts_success_ends {α : Type} (saveOk : Nat → Bool) (arrive : Nat → List α) :
    ∀ (fuel : Nat) (d : α) (t k : Nat) (dflt : α × Bool),
      k < (workerAttempts saveOk arrive d t fuel).length →
      ((workerAttempts saveOk arrive d t fuel).getD k dflt).2 = true →
      k + 1 = (workerAttempts saveOk arrive d t fuel).length := by
  intro fuel
  induction fuel with
  | zero =>
    intro d t k dflt h _
    simp [workerAttempts] at h
  | succ n ih =>
    intro d t k dflt h hsucc
    by_cases hs : saveOk t = true
    · have hred : workerAttempts saveOk arrive d t (n + 1) =
          [(getLastMessage d (arrive t), true)] := by
        rw [workerAttempts, if_pos hs]
      rw [hred] at h ⊢
      simp at h
      subst h
      simp
    · have hred : workerAttempts saveOk arrive d t (n + 1) =
          (getLastMessage d (arrive t), false) ::
            workerAttempts saveOk arrive (getLastMessage d (arrive t)) (t + 1) n := by
        rw [workerAttempts, if_neg (by simp [hs])]
      rw [hred] at h hsucc ⊢
      cases k with
      | zero =>
        rw [List.getD_cons_zero] at hsucc
        cases hsucc
      | succ j =>
        rw [List.getD_cons_succ] at hsucc
        have h' : j < (workerAttempts saveOk arrive (getLastMessage d (arrive t))
            (t + 1) n).length := by
          simpa using h
        have hlen := ih (getLastMessage d (arrive t)) (t + 1) j dflt h' hsucc
        rw [List.length_cons, ← hlen]

/-- Claim C9: every flush attempt of the OverwriteQueue worker saves the
most recently enqueued payload available when the attempt begins (the
worker first drains the queue down to its newest element, discarding the
older pending payloads); a later attempt saves either the same payload or
one enqueued after it (the newest of the fresh arrivals), never an older
one; and a successful save ends the processing of the dequeued payload, so
when the queue has drained the persisted object is the newest enqueued
payload. -/
theorem overwrite_queue_flushes_newest {α : Type} (saveOk : Nat → Bool)
    (arrive : Nat → List α) (fuel : Nat) (d : α) (t : Nat) (dflt : α × Bool) :
    (∀ k, k < (workerAttempts saveOk arrive d t fuel).length →
      ((workerAttempts saveOk arrive d t fuel).getD k dflt).1 =
        (arrivalsThrough arrive t k).getLastD d) ∧
    (∀ k, k + 1 < (workerAttempts saveOk arrive d t fuel).length →
      ((workerAttempts saveOk arrive d t fuel).getD (k + 1) dflt).1 =
        (arrive (t + (k + 1))).getLastD
          (((workerAttempts saveOk arrive d t fuel).getD k dflt).1)) ∧
    (∀ k, k < (workerAttempts saveOk arrive d t fuel).length →
      ((workerAttempts saveOk arrive d t fuel).getD k dflt).2 = true →
      k + 1 = (workerAttempts saveOk arrive d t fuel).length) :=
  ⟨fun k h => workerAttempts_getD_fst saveOk arrive fuel d t k dflt h,
   fun k h2 => workerAttempts_getD_step saveOk arrive fuel d t k dflt h2,
   fun k h hs => workerAttempts_success_ends saveOk arrive fuel d t k dflt h hs⟩

/-- Witness for `overwrite_queue_flushes_newest`: payload 1 is dequeued
while 2 and 3 are already queued; the first attempt drains the queue and
saves 3, the newest. -/
theorem overwrite_queue_flushes_newest_witness :
    0 < (workerAttempts (fun _ => true) (fun t => if t = 0 then [2, 3] else [])
        1 0 3).length ∧
    ((workerAttempts (fun _ => true) (fun t => if t = 0 then [2, 3] else [])
        1 0 3).getD 0 (0, false)).1 =
      (arrivalsThrough (fun t => if t = 0 then [2, 3] else []) 0 0).getLastD 1 ∧
    workerAttempts (fun _ => true) (fun t => if t = 0 then [2, 3] else []) 1 0 3 =
      [(3, true)] :=
  ⟨by decide,
   (overwrite_queue_flushes_newest (fun _ => true)
      (fun t => if t = 0 then [2, 3] else []) 3 1 0 (0, false)).1 0 (by decide),
   by decide⟩

end CatalystUploader
